import Mathlib

/-!
Shallow embedding of the Dark-IV physics-extraction pipeline
(`src/io_handler.py`, `src/physics.py`, `src/config.py`).

Machine floats are embedded as exact rationals (tables, preprocessing,
shunt-resistance regression) or as exact reals where the code takes
logarithms (ideality-factor and series-resistance extraction); float
NaN / undefined cells and results are `Option` values; a Python
exception escaping a routine is an `Except.error`.
-/

namespace DarkIV

/-- Decidable equality for `Except`, used to evaluate pipeline results on
concrete inputs. -/
instance {ε α : Type} [DecidableEq ε] [DecidableEq α] : DecidableEq (Except ε α) :=
  fun a b =>
    match a, b with
    | .error e, .error f =>
      match decEq e f with
      | isTrue h => isTrue (by rw [h])
      | isFalse h => isFalse (by intro hh; injection hh; contradiction)
    | .error _, .ok _ => isFalse (by intro hh; exact Except.noConfusion hh)
    | .ok _, .error _ => isFalse (by intro hh; exact Except.noConfusion hh)
    | .ok x, .ok y =>
      match decEq x y with
      | isTrue h => isTrue (by rw [h])
      | isFalse h => isFalse (by intro hh; injection hh; contradiction)

/-! ## String helpers (Python `in`, `==` on lowered names) -/

/-- Python `needle == hay` after `.lower()` on both, written on char lists:
`leadsWith hay needle` is true when `needle` is an initial run of `hay`. -/
def leadsWith : List Char → List Char → Bool
  | _, [] => true
  | [], _ :: _ => false
  | a :: as, b :: bs => a == b && leadsWith as bs

/-- Python `needle in hay` for strings, on char lists. -/
def occursIn (needle : List Char) : List Char → Bool
  | [] => leadsWith [] needle
  | c :: rest => leadsWith (c :: rest) needle || occursIn needle rest

/-- Python `str.lower`, written directly on the character list. -/
def lowerStr (s : String) : String := ⟨s.data.map Char.toLower⟩

/-- Python `str.strip`: drop whitespace from both ends. -/
def trimStr (s : String) : String :=
  ⟨((s.data.dropWhile Char.isWhitespace).reverse.dropWhile Char.isWhitespace).reverse⟩

/-- Case-insensitive exact name match: `any(n.lower() == col.lower() for n in names)`. -/
def exactMatch (names : List String) (col : String) : Bool :=
  names.any fun n => lowerStr n == lowerStr col

/-- Case-insensitive substring name match: `any(n.lower() in col.lower() for n in names)`. -/
def subMatch (names : List String) (col : String) : Bool :=
  names.any fun n => occursIn (lowerStr n).data (lowerStr col).data

/-! ## Configuration constants (`src/config.py`) -/

/-- Boltzmann constant, 1.380649e-23 J/K. -/
def k_B : ℚ := 1380649 / 10 ^ 29

/-- Elementary charge, 1.60217663e-19 C. -/
def q : ℚ := 160217663 / 10 ^ 27

/-- Standard test temperature, 298.15 K. -/
def T_STC : ℚ := 29815 / 100

/-- Candidate voltage column names. -/
def VOLTAGE_COLUMN_NAMES : List String := ["V", "Voltage", "Voltage (V)", "U"]

/-- Candidate current column names. -/
def CURRENT_COLUMN_NAMES : List String := ["I", "Current", "Current (A)", "J", "Current Density"]

/-- The label strings the preprocessor standardizes to. -/
def strV : String := "V"

/-- The current label. -/
def strI : String := "I"

/-- The current-density label. -/
def strJ : String := "J"

/-- The empty string, used as a `getD` default. -/
def emptyStr : String := ""

/-! ## Data model: a parsed table and its preprocessed form -/

/-- A loaded table: column names plus rows of cells; a cell holds its numeric
value when `pd.to_numeric(..., errors = coerce)` parses it, else `none`. -/
structure Table where
  cols : List String
  rows : List (List (Option ℚ))
deriving DecidableEq, Repr

/-- A working row during preprocessing: the coerced V and I values and the
full original cell list (written back into the output table at the end). -/
structure PRow where
  v : ℚ
  i : ℚ
  cells : List (Option ℚ)
deriving DecidableEq, Repr

/-! ## Generic argmin / argmax (pandas `idxmin` / `idxmax`: first occurrence) -/

/-- First element attaining the minimum of `f`, as pandas `idxmin`:
a later element replaces the current choice only when strictly smaller. -/
def firstArgMin? {α β : Type} [LinearOrder β] (f : α → β) : List α → Option α
  | [] => none
  | x :: t =>
    match firstArgMin? f t with
    | none => some x
    | some y => if f y < f x then some y else some x

/-- First element attaining the maximum of `f`, as pandas `idxmax`. -/
def firstArgMax? {α β : Type} [LinearOrder β] (f : α → β) : List α → Option α
  | [] => none
  | x :: t =>
    match firstArgMax? f t with
    | none => some x
    | some y => if f x < f y then some y else some x

/-! ## Column identification (`DataLoader.preprocess`, step 1) -/

/-- One pass of the identification loop for one name list: an exact match
always (re)assigns the column, a substring match only fills an empty slot. -/
def scanCols (names : List String) : List String → Option String → Option String
  | [], st => st
  | c :: rest, st =>
    scanCols names rest
      (if exactMatch names c then some c
       else if subMatch names c && st.isNone then some c else st)

/-- The column the loop leaves assigned for `names`, starting unassigned. -/
def nameMatch (names : List String) (cols : List String) : Option String :=
  scanCols names cols none

/-- Identification result: name matching for voltage and current, then the
positional fallback (column 0 = V, column 1 = I) when one is unassigned and
the table has exactly two columns; `none` means the `ValueError` is raised. -/
def identifyLabels (cols : List String) : Option (String × String) :=
  match nameMatch VOLTAGE_COLUMN_NAMES cols, nameMatch CURRENT_COLUMN_NAMES cols with
  | some v, some i => some (v, i)
  | _, _ =>
    if cols.length = 2 then some (cols.getD 0 emptyStr, cols.getD 1 emptyStr) else none

/-- `df.rename(columns = ...)` with the dict holding `v_col -> V, i_col -> I`
(one entry, mapping to I, when the two labels coincide). -/
def renameLabel (vlab ilab c : String) : String :=
  if c = ilab then strI else if c = vlab then strV else c

/-- Indices of the columns carrying a label (pandas label-based selection). -/
def labelIdxs (cols : List String) (lab : String) : List Nat :=
  (List.range cols.length).filter fun k => cols.getD k emptyStr == lab

/-! ## Preprocessing pipeline (`DataLoader.preprocess`, steps 2-6) -/

/-- Errors escaping `preprocess`: the deliberate `ValueError` naming the
columns, a pandas fault from selecting a missing or duplicated label, and
the `ValueError` pandas raises taking `idxmin` of an empty series. -/
inductive PErr where
  | columnsNotIdentified (found : List String)
  | selectFault (label : String)
  | emptyIdxMin
deriving DecidableEq, Repr

/-- Coercion and row filtering: keep rows whose V and I cells both parse. -/
def coerceRows (vi ii : Nat) (rows : List (List (Option ℚ))) : List PRow :=
  rows.filterMap fun r =>
    match r.getD vi none, r.getD ii none with
    | some v, some i => some ⟨v, i, r⟩
    | _, _ => none

/-- Sort rows ascending by V (`df.sort_values`). -/
def sortByV (rows : List PRow) : List PRow :=
  List.insertionSort (fun a b => a.v ≤ b.v) rows

instance : IsTotal PRow fun a b => a.v ≤ b.v := ⟨fun a b => le_total a.v b.v⟩

instance : IsTrans PRow fun a b => a.v ≤ b.v := ⟨fun _ _ _ h1 h2 => le_trans h1 h2⟩

/-- Polarity correction: flips decided by the first sample of maximum `abs I`. -/
def polarFix (rows : List PRow) : List PRow :=
  match firstArgMax? (fun r => |r.i|) rows with
  | none => rows
  | some rm =>
    if rm.v < 0 ∧ rm.i < 0 then rows.map fun r => ⟨-r.v, -r.i, r.cells⟩
    else if rm.v < 0 ∧ 0 < rm.i then rows.map fun r => ⟨-r.v, r.i, r.cells⟩
    else if 0 < rm.v ∧ rm.i < 0 then rows.map fun r => ⟨r.v, -r.i, r.cells⟩
    else rows

/-- Write the processed V, I and J values back into a row's cells; J goes
into every column labelled J, or a fresh appended column when none exists. -/
def writeRow (vi ii : Nat) (jIdxs : List Nat) (area : ℚ) (r : PRow) : List (Option ℚ) :=
  let base := (r.cells.set vi (some r.v)).set ii (some r.i)
  let jv : Option ℚ := some (if 0 < area then r.i / area else r.i)
  if jIdxs.isEmpty then base ++ [jv] else jIdxs.foldl (fun acc k => acc.set k jv) base

/-- Assemble the output table after area normalization. -/
def buildTable (cols2 : List String) (vi ii : Nat) (area : ℚ) (rows : List PRow) : Table :=
  let jIdxs := labelIdxs cols2 strJ
  ⟨if jIdxs.isEmpty then cols2 ++ [strJ] else cols2, rows.map (writeRow vi ii jIdxs area)⟩

/-- Zero-offset correction: locate the first sample of minimum `abs V`
(pandas `idxmin`, raising on an empty frame) and, when its V is within
0.5 of zero, subtract its I from every I. -/
def offsetRows (rows2 : List PRow) : Except PErr (List PRow) :=
  match firstArgMin? (fun r => |r.v|) rows2 with
  | none => .error .emptyIdxMin
  | some r0 =>
    .ok (if |r0.v| < 1 / 2 then rows2.map fun r => ⟨r.v, r.i - r0.i, r.cells⟩ else rows2)

/-- Column identification and rename on the stripped header, then the
label-based selection of the standardized V and I columns; pandas faults
when a label is missing or duplicated.  Returns the renamed header and the
two column indices. -/
def prepIdx (header : List String) : Except PErr (List String × Nat × Nat) :=
  let cols := header.map trimStr
  match identifyLabels cols with
  | none => .error (.columnsNotIdentified cols)
  | some (vlab, ilab) =>
    let cols2 := cols.map (renameLabel vlab ilab)
    match labelIdxs cols2 strV, labelIdxs cols2 strI with
    | [vi], [ii] => .ok (cols2, vi, ii)
    | vIdxs, _ => .error (.selectFault (if vIdxs.length = 1 then strI else strV))

/-- The full preprocessor `DataLoader.preprocess`: column identification,
rename, coercion and filtering, sort, zero-offset correction, polarity
correction, re-sort, area normalization. -/
def preprocess (t : Table) (area : ℚ) : Except PErr Table :=
  (prepIdx t.cols).bind fun s =>
    (offsetRows (sortByV (coerceRows s.2.1 s.2.2 t.rows))).map fun rows3 =>
      buildTable s.1 s.2.1 s.2.2 area (sortByV (polarFix rows3))

/-- Index of the column carrying a label in a table (first occurrence). -/
def colIdx (t : Table) (lab : String) : Nat :=
  (labelIdxs t.cols lab).headD 0

/-- A table's column as rational values (`none` cells read as 0). -/
def colQ (t : Table) (lab : String) : List ℚ :=
  t.rows.map fun r => (r.getD (colIdx t lab) none).getD 0

/-! ## Physics (`src/physics.py`)

The analyzer's numbers are floats; they are embedded exactly in a linear
ordered field `K` (`ℚ` for concrete tables, `ℝ` where the code calls
`np.log` / `np.exp`, passed in as `lnK` / `expK`). -/

section Physics

variable {K : Type} [LinearOrderedField K]

/-- A row of the analyzer's frame after smoothing: voltage `V`, current
density `J`, smoothed current density `Js` (the `J_smooth` column). -/
structure SRow (K : Type) where
  V : K
  J : K
  Js : K
deriving DecidableEq, Repr

/-- The analyzer's `results` record; `none` is float NaN (field undefined). -/
structure Results (K : Type) where
  Rsh : Option K
  Rs : Option K
  J0 : Option K
  n : Option K
  rsq : Option K
deriving DecidableEq, Repr

/-- Arithmetic mean of a list. -/
def mean (l : List K) : K := l.sum / (l.length : K)

/-- OLS slope of y on x, `scipy.stats.linregress`: centered cross moment
over centered square moment. -/
def slopeOf (pts : List (K × K)) : K :=
  let xm := mean (pts.map Prod.fst)
  let ym := mean (pts.map Prod.snd)
  (pts.map fun p => (p.1 - xm) * (p.2 - ym)).sum /
    (pts.map fun p => (p.1 - xm) ^ 2).sum

/-- OLS intercept: `ym - slope * xm`. -/
def interceptOf (pts : List (K × K)) : K :=
  mean (pts.map Prod.snd) - slopeOf pts * mean (pts.map Prod.fst)

/-- The square of linregress's correlation `r` (the code only ever uses
`r ** 2`, which is rational in the moments, so the square root never
appears): `sxy^2 / (sxx * syy)`, and 0 when the denominator vanishes. -/
def r2Of (pts : List (K × K)) : K :=
  let xm := mean (pts.map Prod.fst)
  let ym := mean (pts.map Prod.snd)
  let sxy : K := (pts.map fun p => (p.1 - xm) * (p.2 - ym)).sum
  let sxx : K := (pts.map fun p => (p.1 - xm) ^ 2).sum
  let syy : K := (pts.map fun p => (p.2 - ym) ^ 2).sum
  if sxx * syy = 0 then 0 else sxy ^ 2 / (sxx * syy)

/-- Every element equals the head. -/
def allSameB (l : List K) : Bool := l.all fun x => decide (x = l.headD 0)

/-- `scipy.stats.linregress` on point pairs: raises (`error`) on empty input
and when all x values are identical (with more than one point); otherwise
returns `(slope, intercept, r^2)`. -/
def linregress (pts : List (K × K)) : Except Unit (K × K × K) :=
  if pts.isEmpty then .error ()
  else if 1 < pts.length ∧ allSameB (pts.map Prod.fst) = true then .error ()
  else .ok (slopeOf pts, interceptOf pts, r2Of pts)

/-- `np.gradient` with unit spacing: one-sided differences at the ends,
central differences inside.  numpy raises on fewer than two samples; the
guard lives at each call site that can reach that case. -/
def grad (a : List K) : List K :=
  (List.range a.length).map fun k =>
    if k = 0 then a.getD 1 0 - a.getD 0 0
    else if k = a.length - 1 then a.getD k 0 - a.getD (k - 1) 0
    else (a.getD (k + 1) 0 - a.getD (k - 1) 0) / 2

/-- The thermal-voltage factor `q / (k_B * T_STC)`. -/
def qkT : ℚ := q / (k_B * T_STC)

/-- `logJ = log10(J_smooth.abs().replace(0, nan))`: `none` exactly at zero
smoothed current density, `log10 |Js|` elsewhere (also for negative `Js`). -/
def logJOf (log10K : K → K) (Js : List K) : List (Option K) :=
  Js.map fun j => if j = 0 then none else some (log10K |j|)

/-- Rows selected for the shunt-resistance fit: V inside
`R_SH_VOLTAGE_RANGE = [-0.2, 0.2]`. -/
def rshWin (rows : List (SRow K)) : List (SRow K) :=
  rows.filter fun r => decide ((-(1 / 5) : K) ≤ r.V ∧ r.V ≤ (1 / 5 : K))

/-- Shunt-resistance extraction: with more than 2 window samples, Rsh is the
inverse regression slope (1e9 when the slope is exactly zero); a regression
fault escapes, there is no handler in `extract_parameters`. -/
def rshStage (rows : List (SRow K)) : Except Unit (Option K) :=
  let win := rshWin rows
  if 2 < win.length then
    (linregress (win.map fun r => (r.V, r.J))).map fun t =>
      some (if t.1 ≠ 0 then 1 / t.1 else (10 ^ 9 : K))
  else .ok none

/-- The forward-bias subset: `V > 0.1` and `J_smooth > 0`, in frame order. -/
def posRows (rows : List (SRow K)) : List (SRow K) :=
  rows.filter fun r => decide ((1 / 10 : K) < r.V ∧ 0 < r.Js)

/-- V value of the k-th forward-bias sample. -/
def posV (rows : List (SRow K)) (k : Nat) : K :=
  ((posRows rows).map (·.V)).getD k 0

/-- Smoothed current density of the k-th forward-bias sample. -/
def posJs (rows : List (SRow K)) (k : Nat) : K :=
  ((posRows rows).map (·.Js)).getD k 0

/-- `np.gradient` of V over the forward-bias subset. -/
def dVOf (rows : List (SRow K)) : List K :=
  grad ((posRows rows).map (·.V))

/-- `np.gradient` of `ln(J_smooth)` over the forward-bias subset. -/
def dlnOf (lnK : K → K) (rows : List (SRow K)) : List K :=
  grad ((posRows rows).map fun r => lnK r.Js)

/-- Pointwise ideality factor `n_local = (q/(k_B T)) * dV/dlnJ` at position
`k` of the forward-bias subset.  Where the float code turns a vanishing
`dlnJ` into inf or NaN, this exact value is 0; both fail the band test
`0.5 < n_local < 5` below, so the selection behaves identically. -/
def nlocAt (lnK : K → K) (rows : List (SRow K)) (k : Nat) : K :=
  (qkT : K) * ((dVOf rows).getD k 0 / (dlnOf lnK rows).getD k 0)

/-- Positions whose `n_local` lies strictly inside the band (0.5, 5). -/
def bandOf (lnK : K → K) (rows : List (SRow K)) : List Nat :=
  (List.range (posRows rows).length).filter fun k =>
    decide ((1 / 2 : K) < nlocAt lnK rows k ∧ nlocAt lnK rows k < 5)

/-- The working point: `idxmin` of `n_local` over the band — the first
position attaining the minimum. -/
def centerOf? (lnK : K → K) (rows : List (SRow K)) : Option Nat :=
  firstArgMin? (nlocAt lnK rows) (bandOf lnK rows)

/-- Positions of the local fit window `(V_center - 0.05, V_center + 0.05)`. -/
def fitOf (rows : List (SRow K)) (k0 : Nat) : List Nat :=
  (List.range (posRows rows).length).filter fun k =>
    decide (posV rows k0 - 1 / 20 < posV rows k ∧ posV rows k < posV rows k0 + 1 / 20)

/-- The fit window's regression points `(V, ln J_smooth)`. -/
def fitPts (lnK : K → K) (rows : List (SRow K)) (k0 : Nat) : List (K × K) :=
  (fitOf rows k0).map fun k => (posV rows k, lnK (posJs rows k))

/-- Ideality-factor / saturation-current extraction, returning
`(n, J0, r_squared)`: needs more than 5 forward-bias samples, picks the
band minimum of `n_local` as working point, fits `ln J` on V over the
window when it holds more than 2 samples, else falls back to the
single-point estimate with `r_squared` left undefined. -/
def nJ0Stage (lnK expK : K → K) (rows : List (SRow K)) :
    Except Unit (Option K × Option K × Option K) :=
  if 5 < (posRows rows).length then
    match centerOf? lnK rows with
    | none => .ok (none, none, none)
    | some k0 =>
      if 2 < (fitOf rows k0).length then
        (linregress (fitPts lnK rows k0)).map fun t =>
          (some ((q : K) / (t.1 * (k_B : K) * (T_STC : K))), some (expK t.2.1), some t.2.2)
      else
        .ok (some (nlocAt lnK rows k0),
          some (posJs rows k0 /
            expK ((q : K) * posV rows k0 / (nlocAt lnK rows k0 * (k_B : K) * (T_STC : K)))),
          none)
  else .ok (none, none, none)

/-- Series-resistance extraction: attempted only when n and J0 are defined;
takes the first maximum-V sample (pandas `idxmax` raises on an empty frame),
leaves Rs undefined when `J_max <= 0` or `term <= 0`, else clamps
`(V_max - V_ideal)/J_max` at zero. -/
def rsStage (lnK : K → K) (rows : List (SRow K)) (n J0 : Option K) : Except Unit (Option K) :=
  match n, J0 with
  | some nv, some j0 =>
    match firstArgMax? (fun r => r.V) rows with
    | none => .error ()
    | some rmax =>
      if 0 < rmax.Js then
        let term := rmax.Js / j0 + 1
        if 0 < term then
          .ok (some (max 0 ((rmax.V - nv * (k_B : K) * (T_STC : K) / (q : K) * lnK term) / rmax.Js)))
        else .ok none
      else .ok none
  | _, _ => .ok none

/-- `DarkIVAnalyzer.extract_parameters`: the three extraction sections run
in sequence on the shared frame; an exception in one aborts the rest (there
is no try/except in the method). -/
def extract_parameters (lnK expK : K → K) (rows : List (SRow K)) : Except Unit (Results K) :=
  (rshStage rows).bind fun rsh =>
    (nJ0Stage lnK expK rows).bind fun o =>
      (rsStage lnK rows o.1 o.2.1).map fun rs =>
        ⟨rsh, rs, o.2.1, o.1, o.2.2⟩

/-- Pointwise differential resistance `dV/dJ_smooth` with the blow-up
filter: undefined where the float value is non-finite (division by a zero
gradient) and where the magnitude reaches 1e10. -/
def calcRdiff (V Js : List K) : List (Option K) :=
  ((grad V).zip (grad Js)).map fun p =>
    if p.2 = 0 then none
    else if (10 ^ 10 : K) ≤ |p.1 / p.2| then none
    else some (p.1 / p.2)

/-- `DarkIVAnalyzer.calculate_differential_resistance`: a no-op without a
`J_smooth` column; with one, `np.gradient` raises (`error`) on fewer than
two samples, else the filtered `R_diff` series is produced. -/
def calculate_differential_resistance (V : List K) (Jsm : Option (List K)) :
    Except Unit (Option (List (Option K))) :=
  match Jsm with
  | none => .ok none
  | some Js => if V.length < 2 then .error () else .ok (some (calcRdiff V Js))

end Physics

/-! ## Concrete instances used by counterexamples and witnesses -/

/-- A table with identifiable V and I columns in which no row has both
cells numerically parseable. -/
def tblNoParse : Table := ⟨["V", "I"], [[none, some 1], [some 2, none]]⟩

/-- A small raw table: two rows, V and I columns. -/
def tblRaw : Table := ⟨["V", "I"], [[some 0, some 0], [some (1 / 10), some 1]]⟩

/-- The preprocessed form of `tblRaw` (area 1). -/
def tblPre : Table :=
  ⟨["V", "I", "J"], [[some 0, some 0, some 0], [some (1 / 10), some 1, some 1]]⟩

/-- A table whose current column is constant: after zero-offset correction
every I is 0, so the maximum-abs-I sample has V = -1, I = 0 and no
polarity flip fires. -/
def tblFlat : Table :=
  ⟨["V", "I"], [[some (-1), some 3], [some 0, some 3], [some 1, some 3]]⟩

/-- Three smoothed samples at one voltage inside the Rsh window. -/
def rowsConstV : List (SRow ℝ) := [⟨0, 0, 0⟩, ⟨0, 1, 1⟩, ⟨0, 2, 2⟩]

/-! ## Theorems -/

/-- The identification loop computes: the last exactly-matching column when
one exists, else the first substring-matching column, else the start state. -/
theorem scanCols_eq (names : List String) (cols : List String) (st : Option String) :
    scanCols names cols st =
      if (cols.filter (exactMatch names)).isEmpty then
        (match st with
         | some c => some c
         | none => (cols.filter (subMatch names)).head?)
      else (cols.filter (exactMatch names)).getLast? := by
  induction cols generalizing st with
  | nil => cases st <;> simp [scanCols]
  | cons c rest ih =>
    by_cases he : exactMatch names c = true
    · have hf : (c :: rest).filter (exactMatch names) = c :: rest.filter (exactMatch names) := by
        simp [List.filter_cons, he]
      rw [hf]
      have hlast : (c :: rest.filter (exactMatch names)).getLast? =
          if (rest.filter (exactMatch names)).isEmpty then some c
          else (rest.filter (exactMatch names)).getLast? := by
        cases hr : rest.filter (exactMatch names) with
        | nil => simp
        | cons x xs => simp [List.getLast?_cons_cons]
      have hstep : scanCols names (c :: rest) st = scanCols names rest (some c) := by
        simp [scanCols, he]
      rw [hstep, ih (some c), hlast]
      by_cases hre : (rest.filter (exactMatch names)).isEmpty <;> simp [hre]
    · have hf : (c :: rest).filter (exactMatch names) = rest.filter (exactMatch names) := by
        simp [List.filter_cons, he]
      rw [hf]
      by_cases hs : subMatch names c = true
      · have hfs : (c :: rest).filter (subMatch names) = c :: rest.filter (subMatch names) := by
          simp [List.filter_cons, hs]
        cases st with
        | none =>
          have hstep : scanCols names (c :: rest) none = scanCols names rest (some c) := by
            simp [scanCols, he, hs]
          rw [hstep, ih (some c), hfs]
          simp
        | some c0 =>
          have hstep : scanCols names (c :: rest) (some c0) = scanCols names rest (some c0) := by
            simp [scanCols, he, hs]
          rw [hstep, ih (some c0)]
      · have hfs : (c :: rest).filter (subMatch names) = rest.filter (subMatch names) := by
          simp [List.filter_cons, hs]
        have hstep : scanCols names (c :: rest) st = scanCols names rest st := by
          cases st <;> simp [scanCols, he, hs]
        rw [hstep, ih st, hfs]

/-- Counterexample to claim C3: in the two-column table with header I, foo
the current column is identified by an exact name match (I), yet the
positional fallback still fires (because no voltage name matched) and
reassigns both columns — the name-matched current column I ends up as the
voltage column and foo as the current column. -/
theorem C3_fallback_overrides_cex :
    nameMatch CURRENT_COLUMN_NAMES ["I", "foo"] = some strI ∧
    nameMatch VOLTAGE_COLUMN_NAMES ["I", "foo"] = none ∧
    identifyLabels ["I", "foo"] = some (strI, "foo") :=
  of_decide_eq_true (by with_unfolding_all rfl)

/-- Claim C3 (amended): name matching is case-insensitive with exact
matches taking precedence over substring matches (the loop keeps the last
exact match, else the first substring match); the positional fallback fires
whenever at least one of the two channels is unmatched by name and the
table has exactly two columns, and it then reassigns both columns
positionally — possibly overriding a name-matched column; when at least one
channel is unmatched and the table does not have exactly two columns,
preprocessing fails with the error naming the columns found. -/
theorem C3_column_identification (cols : List String) :
    (∀ names : List String,
      nameMatch names cols =
        if (cols.filter (exactMatch names)).isEmpty
        then (cols.filter (subMatch names)).head?
        else (cols.filter (exactMatch names)).getLast?) ∧
    (∀ v i : String, nameMatch VOLTAGE_COLUMN_NAMES cols = some v →
      nameMatch CURRENT_COLUMN_NAMES cols = some i →
      identifyLabels cols = some (v, i)) ∧
    ((nameMatch VOLTAGE_COLUMN_NAMES cols = none ∨
      nameMatch CURRENT_COLUMN_NAMES cols = none) →
      identifyLabels cols =
        if cols.length = 2 then some (cols.getD 0 emptyStr, cols.getD 1 emptyStr)
        else none) ∧
    (∀ t : Table, ∀ area : ℚ, t.cols.map trimStr = cols →
      identifyLabels cols = none →
      preprocess t area = .error (.columnsNotIdentified cols)) := by
  refine ⟨fun names => ?_, fun v i hv hi => ?_, fun hnone => ?_, fun t area hcols hid => ?_⟩
  · rw [nameMatch, scanCols_eq]
  · simp [identifyLabels, hv, hi]
  · rcases hnone with hv | hi
    · cases hi : nameMatch CURRENT_COLUMN_NAMES cols <;>
        simp [identifyLabels, hv, hi]
    · cases hv : nameMatch VOLTAGE_COLUMN_NAMES cols <;>
        simp [identifyLabels, hv, hi]
  · rw [preprocess, prepIdx]
    simp only [hcols, hid]
    rfl

/-- Claim C10: on a table whose voltage and current columns are identified
but in which no row has both values parseable, the preprocessor reaches the
zero-offset step with an empty frame and the `idxmin` fault escapes — it
neither returns an empty Curve nor a column-identification error.  The
second conjunct records that identification itself succeeded. -/
theorem C10_empty_after_coercion_faults :
    preprocess tblNoParse 1 = .error .emptyIdxMin ∧
    prepIdx tblNoParse.cols = .ok (["V", "I"], 0, 1) :=
  of_decide_eq_true (by with_unfolding_all rfl)

/-- Counterexample to claim C2: preprocessing its own output is not a
no-op.  On the second run the appended J column exact-matches the current
name list and overrides I as the current column; renaming J to I collides
with the existing I column and the run faults. -/
theorem C2_not_idempotent_cex :
    preprocess tblRaw 1 = .ok tblPre ∧
    nameMatch CURRENT_COLUMN_NAMES tblPre.cols = some strJ ∧
    preprocess tblPre 1 = .error (.selectFault strI) :=
  of_decide_eq_true (by with_unfolding_all rfl)

/-- Claim C2 (amended): applying the preprocessor to any table with the
canonical preprocessed header V, I, J fails with the duplicated-label
fault on the current column — re-running preprocessing is a fault, not a
no-op, whatever the rows and area. -/
theorem C2_repreprocess_faults (t : Table) (area : ℚ)
    (h : t.cols = [strV, strI, strJ]) :
    preprocess t area = .error (.selectFault strI) := by
  have hid : prepIdx [strV, strI, strJ] = .error (.selectFault strI) :=
    of_decide_eq_true (by with_unfolding_all rfl)
  rw [preprocess, h, hid]
  rfl

/-- Witness for `C2_repreprocess_faults` at the concrete preprocessed
table `tblPre`. -/
theorem C2_repreprocess_faults_witness :
    preprocess tblPre 1 = .error (.selectFault strI) :=
  C2_repreprocess_faults tblPre 1 (of_decide_eq_true (by with_unfolding_all rfl))

section RegressionLemmas

variable {K : Type} [LinearOrderedField K]

/-- A nonempty list is not `isEmpty`. -/
theorem not_isEmpty_of_length_pos {α : Type} {l : List α} (h : 0 < l.length) :
    ¬(l.isEmpty = true) := by
  intro he
  rw [List.isEmpty_iff.mp he] at h
  simp at h

/-- A list of nonnegative terms summing to zero is all zeros. -/
theorem list_sum_nonneg_all_zero {l : List K} (h0 : ∀ x ∈ l, 0 ≤ x)
    (hs : l.sum = 0) : ∀ x ∈ l, x = 0 := by
  induction l with
  | nil => simp
  | cons a t ih =>
    simp only [List.sum_cons] at hs
    have hta : 0 ≤ a := h0 a (by simp)
    have htt : 0 ≤ t.sum := List.sum_nonneg fun x hx => h0 x (by simp [hx])
    have ha : a = 0 := le_antisymm (by linarith) hta
    have ht : t.sum = 0 := by linarith
    intro x hx
    rcases List.mem_cons.mp hx with rfl | hx'
    · exact ha
    · exact ih (fun y hy => h0 y (by simp [hy])) ht x hx'

/-- When not all values coincide, the centered square sum is positive. -/
theorem sum_sq_dev_pos (l : List K) (hns : allSameB l = false) :
    0 < (l.map fun x => (x - mean l) ^ 2).sum := by
  have hex : ∃ x ∈ l, x ≠ l.headD 0 := by
    rcases List.all_eq_false.mp hns with ⟨x, hx, hpx⟩
    exact ⟨x, hx, by simpa using hpx⟩
  rcases hex with ⟨x, hx, hxne⟩
  have hnn : ∀ y ∈ l.map fun x => (x - mean l) ^ 2, 0 ≤ y := by
    intro y hy
    rcases List.mem_map.mp hy with ⟨z, _, rfl⟩
    exact sq_nonneg _
  rcases lt_or_eq_of_le (List.sum_nonneg hnn) with h | h
  · exact h
  · exfalso
    have hall := list_sum_nonneg_all_zero hnn h.symm
    have heq : ∀ z ∈ l, z = mean l := by
      intro z hz
      have h1 := hall ((z - mean l) ^ 2) (List.mem_map.mpr ⟨z, hz, rfl⟩)
      have h2 := (pow_eq_zero_iff two_ne_zero).mp h1
      linarith [sub_eq_zero.mp h2]
    cases l with
    | nil => exact absurd hx (by simp)
    | cons a t =>
      have h1 : x = mean (a :: t) := heq x hx
      have h2 : a = mean (a :: t) := heq a (by simp)
      exact hxne (by rw [h1, List.headD_cons, ← h2])

/-- On exactly linear data `y = G * x` with a nonvanishing centered square
sum, the OLS slope is exactly `G`. -/
theorem slopeOf_linear (G : K) (pts : List (K × K))
    (hlin : ∀ p ∈ pts, p.2 = G * p.1)
    (hsxx : (pts.map fun p => (p.1 - mean (pts.map Prod.fst)) ^ 2).sum ≠ 0) :
    slopeOf pts = G := by
  have hswap : pts.map Prod.snd = pts.map fun b => G * Prod.fst b :=
    List.map_congr_left fun p hp => hlin p hp
  have hs2 : (pts.map Prod.snd).sum = G * (pts.map Prod.fst).sum := by
    rw [hswap]
    exact List.sum_map_mul_left pts Prod.fst G
  have hym : mean (pts.map Prod.snd) = G * mean (pts.map Prod.fst) := by
    rw [mean, mean, hs2, List.length_map, List.length_map, mul_div_assoc]
  have hnum : (pts.map fun p =>
        (p.1 - mean (pts.map Prod.fst)) * (p.2 - mean (pts.map Prod.snd))).sum
      = G * (pts.map fun p => (p.1 - mean (pts.map Prod.fst)) ^ 2).sum := by
    have hswap2 : (pts.map fun p =>
          (p.1 - mean (pts.map Prod.fst)) * (p.2 - mean (pts.map Prod.snd)))
        = pts.map fun p => G * ((p.1 - mean (pts.map Prod.fst)) ^ 2) := by
      refine List.map_congr_left fun p hp => ?_
      rw [hlin p hp, hym]
      ring
    rw [hswap2]
    exact List.sum_map_mul_left pts (fun p => (p.1 - mean (pts.map Prod.fst)) ^ 2) G
  simp only [slopeOf]
  rw [hnum, mul_div_assoc, div_self hsxx, mul_one]

end RegressionLemmas

/-- Counterexample to claim C1: a curve whose Rsh window holds three samples
at one and the same voltage makes the window regression raise (scipy refuses
identical x values); the fault escapes `extract_parameters`, so none of the
extraction procedures — not even the unrelated n/J0 and Rs ones — produce
anything. -/
theorem C1_constant_V_crash_cex :
    extract_parameters Real.log Real.exp rowsConstV = .error () := by
  have hwin : rshWin rowsConstV = rowsConstV := by
    simp only [rshWin, rowsConstV]
    rw [List.filter_cons_of_pos, List.filter_cons_of_pos, List.filter_cons_of_pos,
      List.filter_nil] <;>
      · rw [decide_eq_true_eq]
        norm_num
  have hlen3 : (rowsConstV.map fun r : SRow ℝ => (r.V, r.J)).length = 3 := by
    simp [rowsConstV]
  have hsame : allSameB ((rowsConstV.map fun r : SRow ℝ => (r.V, r.J)).map Prod.fst)
      = true := by
    simp only [rowsConstV, List.map_cons, List.map_nil, allSameB, List.all,
      List.headD_cons, Bool.and_eq_true, decide_eq_true_eq]
    norm_num
  have hpts : linregress (rowsConstV.map fun r : SRow ℝ => (r.V, r.J)) = .error () := by
    rw [linregress,
      if_neg (not_isEmpty_of_length_pos (by rw [hlen3]; norm_num)),
      if_pos ⟨by rw [hlen3]; norm_num, hsame⟩]
  have hrsh : rshStage rowsConstV = .error () := by
    rw [rshStage]
    simp only [hwin]
    rw [if_pos (by rw [show (rowsConstV).length = 3 from by simp [rowsConstV]]; norm_num),
      hpts]
    rfl
  rw [extract_parameters, hrsh]
  rfl

/-- Claim C1 (amended): the too-few-samples guards do isolate those
degenerate inputs — with at most 2 samples in the Rsh window and at most 5
forward-bias samples every extraction runs and leaves every field undefined
without fault — but fault isolation fails in general: whenever the Rsh
window holds more than 2 samples of one identical voltage, the regression
fault escapes `extract_parameters` and the n/J0 and Rs procedures never
run.  Fault isolation exists only per file, in the driver. -/
theorem C1_degenerate_inputs (rows : List (SRow ℝ)) :
    ((rshWin rows).length ≤ 2 → (posRows rows).length ≤ 5 →
      extract_parameters Real.log Real.exp rows = .ok ⟨none, none, none, none, none⟩) ∧
    (2 < (rshWin rows).length → allSameB ((rshWin rows).map (·.V)) = true →
      extract_parameters Real.log Real.exp rows = .error ()) := by
  constructor
  · intro h1 h2
    have hr : rshStage rows = .ok none := by
      rw [rshStage]
      simp only [if_neg (Nat.not_lt.mpr h1)]
    have hn : nJ0Stage Real.log Real.exp rows = .ok (none, none, none) := by
      rw [nJ0Stage]
      simp only [if_neg (Nat.not_lt.mpr h2)]
    rw [extract_parameters, hr]
    simp only [Except.bind]
    rw [hn]
    rfl
  · intro h1 hsame
    have hxs : ((rshWin rows).map fun r => (r.V, r.J)).map Prod.fst
        = (rshWin rows).map (·.V) := by
      rw [List.map_map]
      rfl
    have hlen : 1 < ((rshWin rows).map fun r => (r.V, r.J)).length := by
      rw [List.length_map]
      exact lt_trans one_lt_two h1
    have hpts : linregress ((rshWin rows).map fun r => (r.V, r.J)) = .error () := by
      rw [linregress,
        if_neg (not_isEmpty_of_length_pos (lt_trans Nat.zero_lt_one hlen)),
        if_pos ⟨hlen, by rw [hxs]; exact hsame⟩]
    have hrsh : rshStage rows = .error () := by
      rw [rshStage]
      simp only [if_pos h1, hpts]
      rfl
    rw [extract_parameters, hrsh]
    rfl

/-- Claim C6: Rsh extraction — fewer than 3 window samples leaves Rsh
undefined; otherwise (with the OLS slope defined, that is the window
voltages not all identical) Rsh is the inverse slope, 1e9 at an exactly
zero slope; on noiseless linear data `J = G * V` in the window the result
is exactly `1/G`; and the value lands unchanged in the returned record. -/
theorem C6_rsh_extraction (rows : List (SRow ℝ)) :
    ((rshWin rows).length ≤ 2 → rshStage rows = .ok none) ∧
    (2 < (rshWin rows).length →
      allSameB ((rshWin rows).map (·.V)) = false →
      rshStage rows = .ok (some
        (if slopeOf ((rshWin rows).map fun r => (r.V, r.J)) ≠ 0
         then 1 / slopeOf ((rshWin rows).map fun r => (r.V, r.J))
         else 10 ^ 9))) ∧
    (∀ G : ℝ, G ≠ 0 → (∀ r ∈ rshWin rows, r.J = G * r.V) →
      2 < (rshWin rows).length →
      allSameB ((rshWin rows).map (·.V)) = false →
      rshStage rows = .ok (some (1 / G))) ∧
    (∀ res : Results ℝ, ∀ rsh : Option ℝ,
      extract_parameters Real.log Real.exp rows = .ok res →
      rshStage rows = .ok rsh → res.Rsh = rsh) := by
  have hxs : ((rshWin rows).map fun r => (r.V, r.J)).map Prod.fst
      = (rshWin rows).map (·.V) := by
    rw [List.map_map]
    rfl
  have hok : 2 < (rshWin rows).length →
      allSameB ((rshWin rows).map (·.V)) = false →
      rshStage rows = .ok (some
        (if slopeOf ((rshWin rows).map fun r => (r.V, r.J)) ≠ 0
         then 1 / slopeOf ((rshWin rows).map fun r => (r.V, r.J))
         else 10 ^ 9)) := by
    intro hlen hns
    have hlenm : 1 < ((rshWin rows).map fun r => (r.V, r.J)).length := by
      rw [List.length_map]
      exact lt_trans one_lt_two hlen
    have hguard : ¬(1 < ((rshWin rows).map fun r => (r.V, r.J)).length ∧
        allSameB (((rshWin rows).map fun r => (r.V, r.J)).map Prod.fst) = true) := by
      rintro ⟨-, htrue⟩
      rw [hxs, hns] at htrue
      cases htrue
    rw [rshStage]
    simp only [if_pos hlen]
    rw [linregress,
      if_neg (not_isEmpty_of_length_pos (lt_trans Nat.zero_lt_one hlenm)),
      if_neg hguard]
    rfl
  refine ⟨fun h1 => ?_, hok, fun G hG hlin hlen hns => ?_, fun res rsh hex hr => ?_⟩
  · rw [rshStage]
    simp only [if_neg (Nat.not_lt.mpr h1)]
  · have hbridge : (((rshWin rows).map fun r => (r.V, r.J)).map fun p =>
        (p.1 - mean (((rshWin rows).map fun r => (r.V, r.J)).map Prod.fst)) ^ 2)
        = ((rshWin rows).map (·.V)).map fun x =>
            (x - mean ((rshWin rows).map (·.V))) ^ 2 := by
      rw [hxs, List.map_map, List.map_map]
      rfl
    have hslope : slopeOf ((rshWin rows).map fun r => (r.V, r.J)) = G := by
      apply slopeOf_linear
      · intro p hp
        rcases List.mem_map.mp hp with ⟨r, hrmem, rfl⟩
        exact hlin r hrmem
      · rw [hbridge]
        exact ne_of_gt (sum_sq_dev_pos _ hns)
    rw [hok hlen hns, hslope, if_pos hG]
  · rw [extract_parameters, hr] at hex
    simp only [Except.bind] at hex
    cases h2 : nJ0Stage Real.log Real.exp rows with
    | error e =>
      rw [h2] at hex
      cases hex
    | ok o =>
      rw [h2] at hex
      simp only [Except.bind] at hex
      cases h3 : rsStage Real.log rows o.1 o.2.1 with
      | error e =>
        rw [h3] at hex
        cases hex
      | ok rs =>
        rw [h3] at hex
        simp only [Except.map] at hex
        cases hex
        rfl

/-- Counterexample to claim C5: at a sample with negative smoothed current
density, `logJ` is a defined value (`log10 1 = 0`), not undefined — only
exact zeros are mapped to undefined. -/
theorem C5_negative_Js_defined_cex :
    ((-1 : ℝ) ≤ 0) ∧ (logJOf (Real.logb 10) [(-1 : ℝ)]).getD 0 none = some 0 := by
  refine ⟨by norm_num, ?_⟩
  simp [logJOf, Real.logb]

/-- Claim C5 (amended): after smoothing, `logJ` equals `log10 (abs Js)` at
every sample with nonzero smoothed current density and is undefined exactly
at the samples where `Js = 0`; negative `Js` yields a defined value. -/
theorem C5_logJ_characterization (Js : List ℝ) (k : Nat) :
    (logJOf (Real.logb 10) Js).getD k none =
      (if Js.getD k 0 = 0 then none else some (Real.logb 10 |Js.getD k 0|)) ∧
    (((logJOf (Real.logb 10) Js).getD k none).isSome ↔
      k < Js.length ∧ Js.getD k 0 ≠ 0) := by
  have hmain : (logJOf (Real.logb 10) Js).getD k none =
      (if Js.getD k 0 = 0 then none else some (Real.logb 10 |Js.getD k 0|)) := by
    by_cases hk : k < Js.length
    · have h1 : (logJOf (Real.logb 10) Js).getD k none =
          (if Js[k] = 0 then none else some (Real.logb 10 |Js[k]|)) := by
        simp [logJOf, List.getD, List.getElem?_map, List.getElem?_eq_getElem, hk]
      have h2 : Js.getD k 0 = Js[k] := by
        simp [List.getD, List.getElem?_eq_getElem, hk]
      rw [h1, h2]
    · have hge := Nat.le_of_not_lt hk
      have h1 : (logJOf (Real.logb 10) Js).getD k none = none := by
        have : (logJOf (Real.logb 10) Js).length ≤ k := by simpa [logJOf] using hge
        simp [List.getD, List.getElem?_eq_none this]
      have h2 : Js.getD k 0 = 0 := by
        simp [List.getD, List.getElem?_eq_none hge]
      rw [h1, h2]
      simp
  refine ⟨hmain, ?_⟩
  rw [hmain]
  by_cases hz : Js.getD k 0 = 0
  · rw [if_pos hz]
    exact ⟨fun h => absurd h (by simp), fun hp => absurd hz hp.2⟩
  · rw [if_neg hz]
    have hk : k < Js.length := by
      by_contra hge
      exact hz (List.getD_eq_default Js 0 (Nat.le_of_not_lt hge))
    exact ⟨fun _ => ⟨hk, hz⟩, fun _ => rfl⟩

/-- Counterexample to claim C9: on a single-sample smoothed Curve the
differential-resistance stage is not a no-op and produces no filtered
series — `np.gradient` needs at least two samples and its fault escapes
the method. -/
theorem C9_single_sample_faults_cex :
    calculate_differential_resistance [(0 : ℝ)] (some [(1 : ℝ)]) = .error () := by
  simp [calculate_differential_resistance]

/-- Claim C9 (amended): without a `J_smooth` channel the stage is a no-op;
with one and at least two samples it produces `R_diff = dV/dJs` where every
division by a vanishing gradient (the float infinities and NaNs) and every
value of magnitude at least 1e10 is undefined, never a raw infinity; on a
single-sample curve the gradient fault escapes instead. -/
theorem C9_differential_resistance (V Js : List ℝ) :
    (calculate_differential_resistance V (none : Option (List ℝ)) = .ok none) ∧
    (2 ≤ V.length →
      calculate_differential_resistance V (some Js) = .ok (some (calcRdiff V Js))) ∧
    (∀ k : Nat, k < ((grad V).zip (grad Js)).length →
      ((calcRdiff V Js).getD k none = none ↔
        (grad Js).getD k 0 = 0 ∨
        (10 ^ 10 : ℝ) ≤ |(grad V).getD k 0 / (grad Js).getD k 0|)) := by
  refine ⟨rfl, fun h2 => ?_, fun k hk => ?_⟩
  · simp [calculate_differential_resistance, Nat.not_lt.mpr h2]
  · have hzl : ((grad V).zip (grad Js)).length = min (grad V).length (grad Js).length :=
      List.length_zip _ _
    have hkv : k < (grad V).length := lt_of_lt_of_le (hzl ▸ hk) (Nat.min_le_left _ _)
    have hkj : k < (grad Js).length := lt_of_lt_of_le (hzl ▸ hk) (Nat.min_le_right _ _)
    have hv : (grad V).getD k 0 = (grad V)[k] := by
      simp [List.getD, List.getElem?_eq_getElem, hkv]
    have hj : (grad Js).getD k 0 = (grad Js)[k] := by
      simp [List.getD, List.getElem?_eq_getElem, hkj]
    rw [hv, hj]
    have hklen : k < (calcRdiff V Js).length := by
      simpa [calcRdiff] using hk
    have hmap : (calcRdiff V Js).getD k none = (calcRdiff V Js)[k] := by
      simp [List.getD, List.getElem?_eq_getElem, hklen]
    have hval : (calcRdiff V Js)[k] =
        (if (grad Js)[k] = 0 then none
         else if (10 ^ 10 : ℝ) ≤ |(grad V)[k] / (grad Js)[k]| then none
         else some ((grad V)[k] / (grad Js)[k])) := by
      simp [calcRdiff, List.getElem_map, List.getElem_zip]
    rw [hmap, hval]
    by_cases h0 : (grad Js)[k] = 0
    · simp [h0]
    · by_cases hbig : (10 ^ 10 : ℝ) ≤ |(grad V)[k] / (grad Js)[k]| <;> simp [h0, hbig]

/-- Claim C8: series-resistance extraction is attempted only when n and J0
are both defined; Rs stays undefined at the maximum-V sample when
`J_max <= 0` or when `term = J_max/J0 + 1 <= 0`; otherwise
`Rs = max 0 ((V_max - V_ideal)/J_max)` with
`V_ideal = (n k_B T / q) ln term`; and every defined Rs — also the one in
the record `extract_parameters` returns — is nonnegative. -/
theorem C8_rs_extraction (rows : List (SRow ℝ)) (n J0 : Option ℝ) :
    ((n = none ∨ J0 = none) → rsStage Real.log rows n J0 = .ok none) ∧
    (∀ nv j0 : ℝ, ∀ rmax : SRow ℝ, n = some nv → J0 = some j0 →
      firstArgMax? (fun r : SRow ℝ => r.V) rows = some rmax →
      ((rmax.Js ≤ 0 → rsStage Real.log rows n J0 = .ok none) ∧
       (0 < rmax.Js → rmax.Js / j0 + 1 ≤ 0 → rsStage Real.log rows n J0 = .ok none) ∧
       (0 < rmax.Js → 0 < rmax.Js / j0 + 1 →
         rsStage Real.log rows n J0 = .ok (some (max 0
           ((rmax.V - nv * (k_B : ℝ) * (T_STC : ℝ) / (q : ℝ) *
             Real.log (rmax.Js / j0 + 1)) / rmax.Js)))))) ∧
    (∀ rs : ℝ, rsStage Real.log rows n J0 = .ok (some rs) → 0 ≤ rs) ∧
    (∀ res : Results ℝ, ∀ rs : ℝ,
      extract_parameters Real.log Real.exp rows = .ok res →
      res.Rs = some rs → 0 ≤ rs) := by
  have hnn : ∀ n' J0' : Option ℝ, ∀ rs : ℝ,
      rsStage Real.log rows n' J0' = .ok (some rs) → 0 ≤ rs := by
    intro n' J0' rs hrs
    rcases n' with _ | nv
    · rw [show rsStage Real.log rows none J0' = .ok none from by cases J0' <;> rfl] at hrs
      simp at hrs
    · rcases J0' with _ | j0
      · rw [show rsStage Real.log rows (some nv) none = .ok none from rfl] at hrs
        simp at hrs
      · rw [rsStage] at hrs
        cases hmax : firstArgMax? (fun r : SRow ℝ => r.V) rows with
        | none =>
          rw [hmax] at hrs
          simp at hrs
        | some rmax =>
          rw [hmax] at hrs
          simp only at hrs
          by_cases hJ : 0 < rmax.Js
          · rw [if_pos hJ] at hrs
            by_cases hterm : 0 < rmax.Js / j0 + 1
            · rw [if_pos hterm] at hrs
              simp only [Except.ok.injEq, Option.some.injEq] at hrs
              rw [← hrs]
              exact le_max_left 0 _
            · rw [if_neg hterm] at hrs
              simp at hrs
          · rw [if_neg hJ] at hrs
            simp at hrs
  refine ⟨fun hnone => ?_, fun nv j0 rmax hn hj hmax => ?_, hnn n J0, ?_⟩
  · rcases hnone with rfl | rfl
    · cases J0 <;> rfl
    · cases n <;> rfl
  · subst hn
    subst hj
    rw [rsStage, hmax]
    dsimp only
    refine ⟨fun hle => ?_, fun hJ hterm => ?_, fun hJ hterm => ?_⟩
    · rw [if_neg (not_lt.mpr hle)]
    · rw [if_pos hJ, if_neg (not_lt.mpr hterm)]
    · rw [if_pos hJ, if_pos hterm]
  · intro res rs hex hres
    rw [extract_parameters] at hex
    cases h1 : rshStage (K := ℝ) rows with
    | error e =>
      rw [h1] at hex
      cases hex
    | ok rsh =>
      rw [h1] at hex
      simp only [Except.bind] at hex
      cases h2 : nJ0Stage Real.log Real.exp rows with
      | error e =>
        rw [h2] at hex
        cases hex
      | ok o =>
        rw [h2] at hex
        simp only [Except.bind] at hex
        cases h3 : rsStage Real.log rows o.1 o.2.1 with
        | error e =>
          rw [h3] at hex
          cases hex
        | ok rsv =>
          rw [h3] at hex
          simp only [Except.map] at hex
          cases hex
          simp only at hres
          rw [hres] at h3
          exact hnn o.1 o.2.1 rs h3

section ArgMinLemmas

variable {α β : Type} [LinearOrder β] (f : α → β)

/-- `firstArgMin?` is `none` exactly on the empty list. -/
theorem firstArgMin?_eq_none_iff (l : List α) :
    firstArgMin? f l = none ↔ l = [] := by
  cases l with
  | nil => simp [firstArgMin?]
  | cons x t =>
    simp only [firstArgMin?]
    cases firstArgMin? f t with
    | none => simp
    | some z =>
      by_cases h : f z < f x <;> simp [h]

/-- The chosen element is in the list. -/
theorem firstArgMin?_mem (l : List α) (y : α)
    (h : firstArgMin? f l = some y) : y ∈ l := by
  induction l generalizing y with
  | nil => cases h
  | cons x t ih =>
    rw [firstArgMin?] at h
    cases ht : firstArgMin? f t with
    | none =>
      rw [ht] at h
      dsimp only at h
      cases h
      exact List.mem_cons_self x t
    | some z =>
      rw [ht] at h
      dsimp only at h
      by_cases hlt : f z < f x
      · rw [if_pos hlt] at h
        cases h
        exact List.mem_cons_of_mem x (ih y ht)
      · rw [if_neg hlt] at h
        cases h
        exact List.mem_cons_self x t

/-- The chosen element attains the minimum. -/
theorem firstArgMin?_le (l : List α) (y : α)
    (h : firstArgMin? f l = some y) : ∀ x ∈ l, f y ≤ f x := by
  induction l generalizing y with
  | nil => cases h
  | cons x t ih =>
    rw [firstArgMin?] at h
    cases ht : firstArgMin? f t with
    | none =>
      rw [ht] at h
      dsimp only at h
      cases h
      have := (firstArgMin?_eq_none_iff f t).mp ht
      subst this
      intro z hz
      rcases List.mem_cons.mp hz with rfl | hz'
      · exact le_refl _
      · cases hz'
    | some z =>
      rw [ht] at h
      dsimp only at h
      by_cases hlt : f z < f x
      · rw [if_pos hlt] at h
        cases h
        intro w hw
        rcases List.mem_cons.mp hw with rfl | hw'
        · exact le_of_lt hlt
        · exact ih y ht w hw'
      · rw [if_neg hlt] at h
        cases h
        intro w hw
        rcases List.mem_cons.mp hw with rfl | hw'
        · exact le_refl _
        · exact le_trans (not_lt.mp hlt) (ih z ht w hw')

/-- The chosen element is the first attaining the minimum: everything
before it is strictly larger. -/
theorem firstArgMin?_first (l : List α) (y : α)
    (h : firstArgMin? f l = some y) :
    ∃ l1 l2, l = l1 ++ y :: l2 ∧ ∀ x ∈ l1, f y < f x := by
  induction l generalizing y with
  | nil => cases h
  | cons x t ih =>
    rw [firstArgMin?] at h
    cases ht : firstArgMin? f t with
    | none =>
      rw [ht] at h
      dsimp only at h
      cases h
      exact ⟨[], t, rfl, by simp⟩
    | some z =>
      rw [ht] at h
      dsimp only at h
      by_cases hlt : f z < f x
      · rw [if_pos hlt] at h
        cases h
        rcases ih y ht with ⟨t1, t2, hteq, hbig⟩
        refine ⟨x :: t1, t2, by rw [hteq]; rfl, ?_⟩
        intro w hw
        rcases List.mem_cons.mp hw with rfl | hw'
        · exact hlt
        · exact hbig w hw'
      · rw [if_neg hlt] at h
        cases h
        exact ⟨[], t, rfl, by simp⟩

end ArgMinLemmas

/-- The band positions are strictly increasing. -/
theorem bandOf_pairwise (lnK : ℝ → ℝ) (rows : List (SRow ℝ)) :
    (bandOf lnK rows).Pairwise (· < ·) :=
  List.Pairwise.sublist (List.filter_sublist _) (List.pairwise_lt_range _)

/-- Claim C7: the n/J0 extraction — more than 5 forward-bias samples are
required (else n, J0, r_squared stay undefined, likewise when no `n_local`
lies in the band (0.5, 5)); the working point is the strict minimum of
`n_local` over the band with ties resolved to the first position; a fit
window holding more than 2 samples (and a defined regression slope) yields
the regression results, and a smaller window yields the single-point
fallback with `r_squared` left undefined. -/
theorem C7_nJ0_extraction (rows : List (SRow ℝ)) :
    ((posRows rows).length ≤ 5 →
      nJ0Stage Real.log Real.exp rows = .ok (none, none, none)) ∧
    (bandOf Real.log rows = [] →
      nJ0Stage Real.log Real.exp rows = .ok (none, none, none)) ∧
    (∀ k0 : Nat, centerOf? Real.log rows = some k0 →
      k0 ∈ bandOf Real.log rows ∧
      (∀ j ∈ bandOf Real.log rows,
        nlocAt Real.log rows k0 ≤ nlocAt Real.log rows j) ∧
      (∀ j ∈ bandOf Real.log rows,
        nlocAt Real.log rows j ≤ nlocAt Real.log rows k0 → k0 ≤ j)) ∧
    (∀ k0 : Nat, 5 < (posRows rows).length →
      centerOf? Real.log rows = some k0 →
      2 < (fitOf rows k0).length →
      allSameB ((fitPts Real.log rows k0).map Prod.fst) = false →
      nJ0Stage Real.log Real.exp rows = .ok
        (some ((q : ℝ) / (slopeOf (fitPts Real.log rows k0) * (k_B : ℝ) * (T_STC : ℝ))),
         some (Real.exp (interceptOf (fitPts Real.log rows k0))),
         some (r2Of (fitPts Real.log rows k0)))) ∧
    (∀ k0 : Nat, 5 < (posRows rows).length →
      centerOf? Real.log rows = some k0 →
      (fitOf rows k0).length ≤ 2 →
      nJ0Stage Real.log Real.exp rows = .ok
        (some (nlocAt Real.log rows k0),
         some (posJs rows k0 / Real.exp
           ((q : ℝ) * posV rows k0 /
             (nlocAt Real.log rows k0 * (k_B : ℝ) * (T_STC : ℝ)))),
         none)) := by
  refine ⟨fun h5 => ?_, fun hband => ?_, fun k0 hc => ?_,
    fun k0 h5 hc hfit hns => ?_, fun k0 h5 hc hfit => ?_⟩
  · rw [nJ0Stage, if_neg (Nat.not_lt.mpr h5)]
  · by_cases h5 : 5 < (posRows rows).length
    · have hc : centerOf? Real.log rows = none := by
        rw [centerOf?, hband]
        rfl
      rw [nJ0Stage, if_pos h5, hc]
    · rw [nJ0Stage, if_neg h5]
  · have hmem := firstArgMin?_mem _ _ _ hc
    have hle := firstArgMin?_le _ _ _ hc
    refine ⟨hmem, hle, ?_⟩
    intro j hj hjle
    rcases firstArgMin?_first _ _ _ hc with ⟨l1, l2, heq, hbig⟩
    have hpw : (bandOf Real.log rows).Pairwise (· < ·) := bandOf_pairwise _ _
    rw [heq] at hj hpw
    rcases List.mem_append.mp hj with hj1 | hj2
    · exact absurd hjle (not_le.mpr (hbig j hj1))
    · rcases List.mem_cons.mp hj2 with rfl | hj3
      · exact le_refl _
      · rcases List.pairwise_append.mp hpw with ⟨-, hpc, -⟩
        exact le_of_lt ((List.pairwise_cons.mp hpc).1 j hj3)
  · have hlenp : 0 < (fitPts Real.log rows k0).length := by
      rw [fitPts, List.length_map]
      omega
    have hlen1 : 1 < (fitPts Real.log rows k0).length := by
      rw [fitPts, List.length_map]
      omega
    have hlr : linregress (fitPts Real.log rows k0) =
        .ok (slopeOf (fitPts Real.log rows k0), interceptOf (fitPts Real.log rows k0),
          r2Of (fitPts Real.log rows k0)) := by
      rw [linregress, if_neg (not_isEmpty_of_length_pos hlenp), if_neg]
      rintro ⟨-, htrue⟩
      rw [hns] at htrue
      cases htrue
    rw [nJ0Stage, if_pos h5, hc]
    dsimp only
    rw [if_pos hfit, hlr]
    rfl
  · rw [nJ0Stage, if_pos h5, hc]
    dsimp only
    rw [if_neg (Nat.not_lt.mpr hfit)]

section ArgMaxLemmas

variable {α β : Type} [LinearOrder β] (f : α → β)

/-- The element `idxmax` picks is in the list. -/
theorem firstArgMax?_mem (l : List α) (y : α)
    (h : firstArgMax? f l = some y) : y ∈ l := by
  induction l generalizing y with
  | nil => cases h
  | cons x t ih =>
    rw [firstArgMax?] at h
    cases ht : firstArgMax? f t with
    | none =>
      rw [ht] at h
      dsimp only at h
      cases h
      exact List.mem_cons_self x t
    | some z =>
      rw [ht] at h
      dsimp only at h
      by_cases hlt : f x < f z
      · rw [if_pos hlt] at h
        cases h
        exact List.mem_cons_of_mem x (ih y ht)
      · rw [if_neg hlt] at h
        cases h
        exact List.mem_cons_self x t

/-- `firstArgMax?` is `none` exactly on the empty list. -/
theorem firstArgMax?_eq_none_iff (l : List α) :
    firstArgMax? f l = none ↔ l = [] := by
  cases l with
  | nil => simp [firstArgMax?]
  | cons x t =>
    simp only [firstArgMax?]
    cases firstArgMax? f t with
    | none => simp
    | some z =>
      by_cases h : f x < f z <;> simp [h]

/-- The element `idxmax` picks attains the maximum. -/
theorem firstArgMax?_ge (l : List α) (y : α)
    (h : firstArgMax? f l = some y) : ∀ x ∈ l, f x ≤ f y := by
  induction l generalizing y with
  | nil => cases h
  | cons x t ih =>
    rw [firstArgMax?] at h
    cases ht : firstArgMax? f t with
    | none =>
      rw [ht] at h
      dsimp only at h
      cases h
      have := (firstArgMax?_eq_none_iff f t).mp ht
      subst this
      intro z hz
      rcases List.mem_cons.mp hz with rfl | hz'
      · exact le_refl _
      · cases hz'
    | some z =>
      rw [ht] at h
      dsimp only at h
      by_cases hlt : f x < f z
      · rw [if_pos hlt] at h
        cases h
        intro w hw
        rcases List.mem_cons.mp hw with rfl | hw'
        · exact le_of_lt hlt
        · exact ih y ht w hw'
      · rw [if_neg hlt] at h
        cases h
        intro w hw
        rcases List.mem_cons.mp hw with rfl | hw'
        · exact le_refl _
        · exact le_trans (ih z ht w hw') (not_lt.mp hlt)

end ArgMaxLemmas

/-! ## Lemmas on label lookup and row write-back, for claim C4 -/

/-- Membership in `labelIdxs` is position plus name. -/
theorem mem_labelIdxs (cols : List String) (lab : String) (j : Nat) :
    j ∈ labelIdxs cols lab ↔ j < cols.length ∧ cols.getD j emptyStr = lab := by
  rw [labelIdxs, List.mem_filter, List.mem_range]
  simp [beq_iff_eq]

/-- A singleton `labelIdxs` pins the unique position of a label. -/
theorem labelIdxs_single (cols : List String) (lab : String) (k : Nat)
    (h : labelIdxs cols lab = [k]) :
    k < cols.length ∧ cols.getD k emptyStr = lab := by
  have hk : k ∈ labelIdxs cols lab := by rw [h]; exact List.mem_cons_self _ _
  exact (mem_labelIdxs cols lab k).mp hk

/-- `labelIdxs` over an appended single column. -/
theorem labelIdxs_append_single (cols : List String) (x lab : String) :
    labelIdxs (cols ++ [x]) lab =
      labelIdxs cols lab ++ (if x = lab then [cols.length] else []) := by
  have hlen : (cols ++ [x]).length = cols.length + 1 := by
    rw [List.length_append]
    rfl
  rw [labelIdxs, labelIdxs, hlen, List.range_succ, List.filter_append]
  congr 1
  · apply List.filter_congr
    intro k hk
    rw [List.mem_range] at hk
    rw [List.getD_append _ _ _ _ hk]
  · have hx : (cols ++ [x]).getD cols.length emptyStr = x := by
      rw [List.getD_eq_getElem?_getD, List.getElem?_append_right (le_refl _)]
      simp
    by_cases hxl : x = lab
    · simp [List.filter, hx, hxl]
    · have hxf : (x == lab) = false := beq_eq_false_iff_ne.mpr hxl
      simp [List.filter, hx, hxf, hxl]

/-- Inversion of a successful `prepIdx`: the selected indices are the unique
V and I positions of the renamed header, whose length is the input's. -/
theorem prepIdx_ok_facts (header cols2 : List String) (vi ii : Nat)
    (h : prepIdx header = .ok (cols2, vi, ii)) :
    labelIdxs cols2 strV = [vi] ∧ labelIdxs cols2 strI = [ii] ∧
    cols2.length = header.length := by
  rw [prepIdx] at h
  cases hident : identifyLabels (header.map trimStr) with
  | none =>
    rw [hident] at h
    cases h
  | some p =>
    rw [hident] at h
    obtain ⟨vlab, ilab⟩ := p
    dsimp only at h
    cases hV : labelIdxs ((header.map trimStr).map (renameLabel vlab ilab)) strV with
    | nil =>
      rw [hV] at h
      cases h
    | cons a as =>
      cases as with
      | nil =>
        cases hI : labelIdxs ((header.map trimStr).map (renameLabel vlab ilab)) strI with
        | nil =>
          rw [hV, hI] at h
          cases h
        | cons b bs =>
          cases bs with
          | nil =>
            rw [hV, hI] at h
            cases h
            exact ⟨hV, hI, by simp⟩
          | cons c cs =>
            rw [hV, hI] at h
            cases h
      | cons a2 as2 =>
        rw [hV] at h
        cases h

/-- Repeated `set` at positions avoiding `m` does not change position `m`. -/
theorem foldl_set_getD_not_mem (ks : List Nat) (jv : Option ℚ)
    (acc : List (Option ℚ)) (m : Nat) (hm : m ∉ ks) :
    (ks.foldl (fun a k => a.set k jv) acc).getD m none = acc.getD m none := by
  induction ks generalizing acc with
  | nil => rfl
  | cons k0 rest ih =>
    rw [List.foldl_cons, ih _ fun hc => hm (List.mem_cons_of_mem _ hc)]
    rw [List.getD_eq_getElem?_getD, List.getD_eq_getElem?_getD,
      List.getElem?_set_ne fun he => hm (by rw [he]; exact List.mem_cons_self _ _)]

/-- Repeated `set` of one value at positions including `m` writes it there. -/
theorem foldl_set_getD_mem (ks : List Nat) (jv : Option ℚ)
    (acc : List (Option ℚ)) (m : Nat) (hm : m ∈ ks) (hlt : m < acc.length) :
    (ks.foldl (fun a k => a.set k jv) acc).getD m none = jv := by
  induction ks generalizing acc with
  | nil => cases hm
  | cons k0 rest ih =>
    rw [List.foldl_cons]
    by_cases hmr : m ∈ rest
    · exact ih _ hmr (by rw [List.length_set]; exact hlt)
    · have hm0 : m = k0 := by
        rcases List.mem_cons.mp hm with h | h
        · exact h
        · exact absurd h hmr
      subst hm0
      rw [foldl_set_getD_not_mem rest jv _ m hmr, List.getD_eq_getElem?_getD,
        List.getElem?_set_self hlt]
      rfl

/-- Reading back the V cell of a written row. -/
theorem writeRow_getD_v (vi ii : Nat) (jIdxs : List Nat) (area : ℚ) (r : PRow)
    (hvlt : vi < r.cells.length) (hne : vi ≠ ii) (hj : vi ∉ jIdxs) :
    (writeRow vi ii jIdxs area r).getD vi none = some r.v := by
  have hbase : ((r.cells.set vi (some r.v)).set ii (some r.i)).getD vi none = some r.v := by
    rw [List.getD_eq_getElem?_getD, List.getElem?_set_ne (Ne.symm hne),
      List.getElem?_set_self hvlt]
    rfl
  rw [writeRow]
  by_cases hemp : jIdxs.isEmpty
  · rw [if_pos hemp, List.getD_append _ _ _ _ (by simp [List.length_set]; exact hvlt)]
    exact hbase
  · rw [if_neg hemp, foldl_set_getD_not_mem _ _ _ _ hj]
    exact hbase

/-- Reading back the I cell of a written row. -/
theorem writeRow_getD_i (vi ii : Nat) (jIdxs : List Nat) (area : ℚ) (r : PRow)
    (hilt : ii < r.cells.length) (hj : ii ∉ jIdxs) :
    (writeRow vi ii jIdxs area r).getD ii none = some r.i := by
  have hbase : ((r.cells.set vi (some r.v)).set ii (some r.i)).getD ii none = some r.i := by
    rw [List.getD_eq_getElem?_getD,
      List.getElem?_set_self (by rw [List.length_set]; exact hilt)]
    rfl
  rw [writeRow]
  by_cases hemp : jIdxs.isEmpty
  · rw [if_pos hemp, List.getD_append _ _ _ _ (by simp [List.length_set]; exact hilt)]
    exact hbase
  · rw [if_neg hemp, foldl_set_getD_not_mem _ _ _ _ hj]
    exact hbase

/-- Reading back the J cell of a written row, appended-column case. -/
theorem writeRow_getD_j_append (vi ii : Nat) (area : ℚ) (r : PRow) :
    (writeRow vi ii [] area r).getD r.cells.length none =
      some (if 0 < area then r.i / area else r.i) := by
  rw [writeRow]
  rw [if_pos (show (([] : List Nat).isEmpty) = true from rfl)]
  rw [List.getD_eq_getElem?_getD,
    List.getElem?_append_right (by simp [List.length_set])]
  simp [List.length_set]

/-- Reading back the J cell of a written row, existing-column case. -/
theorem writeRow_getD_j_mem (vi ii : Nat) (jIdxs : List Nat) (area : ℚ) (r : PRow)
    (kJ : Nat) (hk : kJ ∈ jIdxs) (hlt : kJ < r.cells.length) :
    (writeRow vi ii jIdxs area r).getD kJ none =
      some (if 0 < area then r.i / area else r.i) := by
  rw [writeRow, if_neg (by rw [List.isEmpty_iff]; intro he; rw [he] at hk; cases hk)]
  exact foldl_set_getD_mem _ _ _ _ hk (by simp [List.length_set]; exact hlt)

/-- Every row surviving to the polarity-corrected list carries the cells of
some original table row, with its V and I cells parsed. -/
theorem pipeline_cells (vi ii : Nat) (rows : List (List (Option ℚ)))
    (rows3 : List PRow)
    (hoff : offsetRows (sortByV (coerceRows vi ii rows)) = .ok rows3) :
    ∀ r5 ∈ sortByV (polarFix rows3), r5.cells ∈ rows := by
  have hco : ∀ r ∈ coerceRows vi ii rows, r.cells ∈ rows := by
    intro r hr
    rcases List.mem_filterMap.mp hr with ⟨row, hrow, hsome⟩
    cases hv : row.getD vi none with
    | none => rw [hv] at hsome; cases hsome
    | some v =>
      cases hi : row.getD ii none with
      | none => rw [hv, hi] at hsome; cases hsome
      | some i =>
        rw [hv, hi] at hsome
        cases hsome
        exact hrow
  have hso : ∀ r ∈ sortByV (coerceRows vi ii rows), r.cells ∈ rows := by
    intro r hr
    exact hco r (((List.perm_insertionSort _ _).mem_iff).mp hr)
  have h3 : ∀ r ∈ rows3, r.cells ∈ rows := by
    rw [offsetRows] at hoff
    cases hmin : firstArgMin? (fun r : PRow => |r.v|) (sortByV (coerceRows vi ii rows)) with
    | none =>
      rw [hmin] at hoff
      cases hoff
    | some r0 =>
      rw [hmin] at hoff
      dsimp only at hoff
      cases hoff
      by_cases hc : |r0.v| < 1 / 2
      · rw [if_pos hc]
        intro r hr
        rcases List.mem_map.mp hr with ⟨r2, hr2, rfl⟩
        exact hso r2 hr2
      · rw [if_neg hc]
        exact hso
  have h4 : ∀ r ∈ polarFix rows3, r.cells ∈ rows := by
    rw [polarFix]
    cases hmax : firstArgMax? (fun r : PRow => |r.i|) rows3 with
    | none => exact h3
    | some rm =>
      dsimp only
      intro r hr
      split at hr
      · rcases List.mem_map.mp hr with ⟨r3, hr3, rfl⟩
        exact h3 r3 hr3
      · split at hr
        · rcases List.mem_map.mp hr with ⟨r3, hr3, rfl⟩
          exact h3 r3 hr3
        · split at hr
          · rcases List.mem_map.mp hr with ⟨r3, hr3, rfl⟩
            exact h3 r3 hr3
          · exact h3 r hr
  intro r5 hr5
  exact h4 r5 (((List.perm_insertionSort _ _).mem_iff).mp hr5)

/-- Reading the V and J columns of the assembled output table. -/
theorem colQ_buildTable (cols2 : List String) (vi ii : Nat) (area : ℚ)
    (rows5 : List PRow)
    (hV : labelIdxs cols2 strV = [vi]) (hI : labelIdxs cols2 strI = [ii])
    (hwf : ∀ r ∈ rows5, r.cells.length = cols2.length) :
    colQ (buildTable cols2 vi ii area rows5) strV = rows5.map (·.v) ∧
    colQ (buildTable cols2 vi ii area rows5) strJ =
      rows5.map fun r => if 0 < area then r.i / area else r.i := by
  obtain ⟨hvlt, hvname⟩ := labelIdxs_single cols2 strV vi hV
  obtain ⟨hilt, hiname⟩ := labelIdxs_single cols2 strI ii hI
  have hVI : strV ≠ strI := by decide
  have hVJ : strV ≠ strJ := by decide
  have hIJ : strI ≠ strJ := by decide
  have hne : vi ≠ ii := by
    intro he
    rw [he, hiname] at hvname
    exact hVI hvname.symm
  have hjv : vi ∉ labelIdxs cols2 strJ := by
    intro hmem
    have hname := ((mem_labelIdxs cols2 strJ vi).mp hmem).2
    rw [hvname] at hname
    exact hVJ hname
  have hji : ii ∉ labelIdxs cols2 strJ := by
    intro hmem
    have hname := ((mem_labelIdxs cols2 strJ ii).mp hmem).2
    rw [hiname] at hname
    exact hIJ hname
  by_cases hemp : (labelIdxs cols2 strJ).isEmpty = true
  · have hJnil : labelIdxs cols2 strJ = [] := List.isEmpty_iff.mp hemp
    have hout : (buildTable cols2 vi ii area rows5).cols = cols2 ++ [strJ] := by
      rw [buildTable]
      simp only [hJnil]
      rfl
    have hrows : (buildTable cols2 vi ii area rows5).rows
        = rows5.map (writeRow vi ii [] area) := by
      rw [buildTable]
      simp only [hJnil]
    have hlabV : labelIdxs (cols2 ++ [strJ]) strV = [vi] := by
      rw [labelIdxs_append_single, hV, if_neg (Ne.symm hVJ)]
      rfl
    have hlabJ : labelIdxs (cols2 ++ [strJ]) strJ = [cols2.length] := by
      rw [labelIdxs_append_single, hJnil, if_pos rfl]
      rfl
    constructor
    · rw [colQ, colIdx, hout, hrows, hlabV, List.map_map]
      refine List.map_congr_left fun r hr => ?_
      have := writeRow_getD_v vi ii [] area r (by rw [hwf r hr]; exact hvlt) hne
        (by intro hc; cases hc)
      simp only [Function.comp, List.headD_cons, this]
      rfl
    · rw [colQ, colIdx, hout, hrows, hlabJ, List.map_map]
      refine List.map_congr_left fun r hr => ?_
      have hidx : cols2.length = r.cells.length := (hwf r hr).symm
      simp only [Function.comp, List.headD_cons, hidx, writeRow_getD_j_append]
      rfl
  · have hout : (buildTable cols2 vi ii area rows5).cols = cols2 := by
      rw [buildTable]
      simp only [hemp]
      rfl
    have hrows : (buildTable cols2 vi ii area rows5).rows
        = rows5.map (writeRow vi ii (labelIdxs cols2 strJ) area) := by
      rw [buildTable]
    have hkJmem : (labelIdxs cols2 strJ).headD 0 ∈ labelIdxs cols2 strJ := by
      cases hl : labelIdxs cols2 strJ with
      | nil => rw [hl] at hemp; exact absurd rfl hemp
      | cons a as => simp
    have hkJlt : (labelIdxs cols2 strJ).headD 0 < cols2.length :=
      ((mem_labelIdxs _ _ _).mp hkJmem).1
    constructor
    · rw [colQ, colIdx, hout, hrows, hV, List.map_map]
      refine List.map_congr_left fun r hr => ?_
      have := writeRow_getD_v vi ii (labelIdxs cols2 strJ) area r
        (by rw [hwf r hr]; exact hvlt) hne hjv
      simp only [Function.comp, List.headD_cons, this]
      rfl
    · rw [colQ, colIdx, hout, hrows, List.map_map]
      refine List.map_congr_left fun r hr => ?_
      have := writeRow_getD_j_mem vi ii (labelIdxs cols2 strJ) area r
        ((labelIdxs cols2 strJ).headD 0) hkJmem (by rw [hwf r hr]; exact hkJlt)
      simp only [Function.comp, this]
      rfl

/-- After polarity correction: when the selected maximum-abs-I sample has
nonzero V and I, its image lies in the first quadrant and still attains the
maximum of abs I. -/
theorem polarFix_q1 (rows3 : List PRow) (rm : PRow)
    (hmax : firstArgMax? (fun r : PRow => |r.i|) rows3 = some rm)
    (hv : rm.v ≠ 0) (hi : rm.i ≠ 0) :
    ∃ rm2 ∈ polarFix rows3, 0 < rm2.v ∧ 0 < rm2.i ∧
      ∀ r ∈ polarFix rows3, |r.i| ≤ |rm2.i| := by
  have hge := firstArgMax?_ge _ _ _ hmax
  have hmem := firstArgMax?_mem _ _ _ hmax
  rw [polarFix, hmax]
  dsimp only
  rcases lt_trichotomy rm.v 0 with hvneg | hv0 | hvpos
  · rcases lt_trichotomy rm.i 0 with hineg | hi0 | hipos
    · rw [if_pos ⟨hvneg, hineg⟩]
      refine ⟨⟨-rm.v, -rm.i, rm.cells⟩, List.mem_map.mpr ⟨rm, hmem, rfl⟩,
        neg_pos.mpr hvneg, neg_pos.mpr hineg, ?_⟩
      intro r hr
      rcases List.mem_map.mp hr with ⟨r3, hr3, rfl⟩
      show |(-r3.i)| ≤ |(-rm.i)|
      rw [abs_neg, abs_neg]
      exact hge r3 hr3
    · exact absurd hi0 hi
    · rw [if_neg fun hc => absurd hipos (not_lt.mpr (le_of_lt hc.2)),
        if_pos ⟨hvneg, hipos⟩]
      refine ⟨⟨-rm.v, rm.i, rm.cells⟩, List.mem_map.mpr ⟨rm, hmem, rfl⟩,
        neg_pos.mpr hvneg, hipos, ?_⟩
      intro r hr
      rcases List.mem_map.mp hr with ⟨r3, hr3, rfl⟩
      exact hge r3 hr3
  · exact absurd hv0 hv
  · rcases lt_trichotomy rm.i 0 with hineg | hi0 | hipos
    · rw [if_neg fun hc => absurd hvpos (not_lt.mpr (le_of_lt hc.1)),
        if_neg fun hc => absurd hvpos (not_lt.mpr (le_of_lt hc.1)),
        if_pos ⟨hvpos, hineg⟩]
      refine ⟨⟨rm.v, -rm.i, rm.cells⟩, List.mem_map.mpr ⟨rm, hmem, rfl⟩,
        hvpos, neg_pos.mpr hineg, ?_⟩
      intro r hr
      rcases List.mem_map.mp hr with ⟨r3, hr3, rfl⟩
      show |(-r3.i)| ≤ |(-rm.i)|
      rw [abs_neg, abs_neg]
      exact hge r3 hr3
    · exact absurd hi0 hi
    · rw [if_neg fun hc => absurd hvpos (not_lt.mpr (le_of_lt hc.1)),
        if_neg fun hc => absurd hvpos (not_lt.mpr (le_of_lt hc.1)),
        if_neg fun hc => absurd hipos (not_lt.mpr (le_of_lt hc.2))]
      exact ⟨rm, hmem, hvpos, hipos, hge⟩

/-- Counterexample to claim C4: a table whose current column is constant.
After the zero-offset correction every I is 0, the maximum-abs-I sample has
V = -1 and I = 0, no polarity flip fires, and the preprocessed table has
every J equal to 0 — no sample of maximum abs J, indeed no sample at all,
has V > 0 and J > 0. -/
theorem C4_flat_curve_cex :
    preprocess tblFlat 1 = .ok
      ⟨["V", "I", "J"],
        [[some (-1), some 0, some 0], [some 0, some 0, some 0],
         [some 1, some 0, some 0]]⟩ ∧
    ∀ p ∈ [((-1 : ℚ), (0 : ℚ)), (0, 0), (1, 0)], ¬(0 < p.1 ∧ 0 < p.2) :=
  of_decide_eq_true (by with_unfolding_all rfl)

/-- Claim C4 (amended): for every well-formed accepted table the output V
column is monotonically non-decreasing; and provided the sample the
polarity step selects (first of maximum abs I after offset correction) has
nonzero V and nonzero I, some sample attaining the maximum abs J lies in
the first quadrant (V > 0, J > 0). -/
theorem C4_preprocess_invariant (t : Table) (area : ℚ) (t2 : Table)
    (hwf : ∀ r ∈ t.rows, r.length = t.cols.length)
    (h : preprocess t area = .ok t2) :
    (colQ t2 strV).Pairwise (· ≤ ·) ∧
    (∀ cols2 : List String, ∀ vi ii : Nat, ∀ rows3 : List PRow, ∀ rm : PRow,
      prepIdx t.cols = .ok (cols2, vi, ii) →
      offsetRows (sortByV (coerceRows vi ii t.rows)) = .ok rows3 →
      firstArgMax? (fun r : PRow => |r.i|) rows3 = some rm →
      rm.v ≠ 0 → rm.i ≠ 0 →
      ∃ p ∈ (colQ t2 strV).zip (colQ t2 strJ),
        (∀ p2 ∈ (colQ t2 strV).zip (colQ t2 strJ), |p2.2| ≤ |p.2|) ∧
        0 < p.1 ∧ 0 < p.2) := by
  rw [preprocess] at h
  cases hid : prepIdx t.cols with
  | error e =>
    rw [hid] at h
    cases h
  | ok s =>
    rw [hid] at h
    simp only [Except.bind] at h
    obtain ⟨cols2, vi, ii⟩ := s
    dsimp only at h
    cases hoff : offsetRows (sortByV (coerceRows vi ii t.rows)) with
    | error e =>
      rw [hoff] at h
      cases h
    | ok rows3 =>
      rw [hoff] at h
      simp only [Except.map] at h
      cases h
      obtain ⟨hV, hI, hlen2⟩ := prepIdx_ok_facts _ _ _ _ hid
      have hwf5 : ∀ r ∈ sortByV (polarFix rows3), r.cells.length = cols2.length := by
        intro r hr
        rw [hlen2]
        exact hwf r.cells (pipeline_cells vi ii t.rows rows3 hoff r hr)
      obtain ⟨hcolV, hcolJ⟩ :=
        colQ_buildTable cols2 vi ii area (sortByV (polarFix rows3)) hV hI hwf5
      constructor
      · rw [hcolV]
        exact List.pairwise_map.mpr (List.sorted_insertionSort _ _)
      · intro cols2' vi' ii' rows3' rm hid' hoff' hmax hv hi
        injection hid' with h1
        cases h1
        injection hoff.symm.trans hoff' with h2
        cases h2
        obtain ⟨rm2, hrmem, hrv, hri, hrmax⟩ := polarFix_q1 rows3 rm hmax hv hi
        have hperm := List.perm_insertionSort (fun a b : PRow => a.v ≤ b.v) (polarFix rows3)
        have hmem5 : rm2 ∈ sortByV (polarFix rows3) := hperm.mem_iff.mpr hrmem
        have hmax5 : ∀ r ∈ sortByV (polarFix rows3), |r.i| ≤ |rm2.i| :=
          fun r hr => hrmax r (hperm.mem_iff.mp hr)
        rw [hcolV, hcolJ, List.zip_map']
        refine ⟨(rm2.v, if 0 < area then rm2.i / area else rm2.i),
          List.mem_map.mpr ⟨rm2, hmem5, rfl⟩, ?_, hrv, ?_⟩
        · intro p2 hp2
          rcases List.mem_map.mp hp2 with ⟨r5, hr5, rfl⟩
          dsimp only
          by_cases ha : 0 < area
          · rw [if_pos ha, if_pos ha, abs_div, abs_div, abs_of_pos ha]
            exact (div_le_div_iff_of_pos_right ha).mpr (hmax5 r5 hr5)
          · rw [if_neg ha, if_neg ha]
            exact hmax5 r5 hr5
        · dsimp only
          by_cases ha : 0 < area
          · rw [if_pos ha]
            exact div_pos hri ha
          · rw [if_neg ha]
            exact hri

/-- Witness for `C4_preprocess_invariant` at the concrete raw table
`tblRaw` with area 1. -/
theorem C4_preprocess_invariant_witness :
    (colQ tblPre strV).Pairwise (· ≤ ·) ∧
    (∀ cols2 : List String, ∀ vi ii : Nat, ∀ rows3 : List PRow, ∀ rm : PRow,
      prepIdx tblRaw.cols = .ok (cols2, vi, ii) →
      offsetRows (sortByV (coerceRows vi ii tblRaw.rows)) = .ok rows3 →
      firstArgMax? (fun r : PRow => |r.i|) rows3 = some rm →
      rm.v ≠ 0 → rm.i ≠ 0 →
      ∃ p ∈ (colQ tblPre strV).zip (colQ tblPre strJ),
        (∀ p2 ∈ (colQ tblPre strV).zip (colQ tblPre strJ), |p2.2| ≤ |p.2|) ∧
        0 < p.1 ∧ 0 < p.2) :=
  C4_preprocess_invariant tblRaw 1 tblPre
    (of_decide_eq_true (by with_unfolding_all rfl))
    (of_decide_eq_true (by with_unfolding_all rfl))

end DarkIV
